import Mathlib

/-!
SeaBIOS thread scheduler and 16bit to 32bit call bridge (`src/stacks.c`).

A shallow embedding of `roms/seabios/src/stacks.c`.

* `thread_info` objects live in a typed heap `Machine.mem`, indexed by their
  address; the words pushed and popped by the inline assembly live in
  `Machine.stk`.  The two stores are kept apart: a stack that grows down into
  the eight header bytes of its own block is outside the model.
* Registers and globals are fields of `Machine`; 32 bit arithmetic is done on
  `Nat` with an explicit `% 2 ^ 32`.
* Code that lives outside `stacks.c` (`check_irqs`, `free`, `dprintf`, port
  I/O, `useRTC`, ...) is recorded as an `Event` in `Machine.trace`.
* A function that can leave through a stack switch returns an `Outcome`:
  either it returned to its caller, or control was handed to another thread.
  The machine state carried by `switched` is the state right after the final
  `retl` of the switching sequence.
* C level call frames are not modelled: `getesp()` reads `Machine.esp` as it is
  on entry of the C function; the pushes written in the inline assembly are
  modelled one by one.
* The build-time checks `ASSERT16()` and `ASSERT32()` generate no code and have
  no counterpart here.  `stack_hop` and `wait_threads` are not embedded.
-/

namespace SeaBIOS

/-! ## Data model -/

/-- Build-time constants and link-time addresses used by `stacks.c` whose
definitions live in other files (`config.h`, `bregs.h`, `ioport.h`, the linker
script).  They are parameters of the model. -/
structure Config where
  MODE16 : Bool
  CONFIG_THREADS : Bool
  CONFIG_THREAD_OPTIONROMS : Bool
  BUILD_STACK_ADDR : Nat
  CR0_PE : Nat
  NMI_DISABLE_BIT : Nat
  PORT_CMOS_INDEX : Nat
  PORT_CMOS_DATA : Nat
  DEBUG_thread : Nat
  /-- Address of the global `MainThread`. -/
  MainThread : Nat
  /-- Address of the label `1:` in `switch_next`. -/
  switch_next_1 : Nat
  /-- Address of the label `1:` in `run_thread`. -/
  run_thread_1 : Nat
  /-- Address of the instruction after `calll *%ecx` in `run_thread`. -/
  run_thread_end : Nat
  /-- Address of the instruction after `calll %4` in `run_thread`. -/
  run_thread_fin : Nat
  /-- Address of the label `1:` in `call32` (already offset by BUILD_BIOS_ADDR). -/
  call32_1 : Nat
  /-- Address of the instruction after `calll %2` in `call32`. -/
  call32_ret : Nat
  /-- Address of the label `2:` in `call32`. -/
  call32_2 : Nat

/-- The `#define THREADSTACKSIZE 4096`. -/
def THREADSTACKSIZE : Nat := 4096

/-- The `struct thread_info`. -/
structure thread_info where
  next : Nat
  stackpos : Nat
deriving DecidableEq

/-- Calls that leave `stacks.c`. -/
inductive Event where
  | inb (port : Nat)
  | outb (val port : Nat)
  | check_irqs
  | memalign_tmphigh (align size result : Nat)
  | free (ptr : Nat)
  | dprintf (level arg : Nat)
  | transition32
  | transition16big
  | useRTC
  | releaseRTC
deriving DecidableEq

/-- Machine state seen by `stacks.c`. -/
structure Machine where
  /-- The `thread_info` object stored at an address. -/
  mem : Nat → thread_info
  /-- The 32 bit word stored at a stack address. -/
  stk : Nat → Nat
  esp : Nat
  ebp : Nat
  /-- Address at which execution continues after the last `retl`. -/
  pc : Nat
  ss : Nat
  ds : Nat
  fs : Nat
  gs : Nat
  gdt : Nat
  cr0 : Nat
  /-- Value held by an I/O port. -/
  ports : Nat → Nat
  CanPreempt : Int
  PreemptCount : Nat
  trace : List Event

/-- Result of running a function that may switch stacks. -/
inductive Outcome (α : Type) where
  /-- The function returned `ret` to its caller. -/
  | returned (ret : α) (s : Machine)
  /-- Control was handed to the thread `target`; the function has not returned. -/
  | switched (target : Nat) (s : Machine)

/-! ## Helpers -/

/-- Truncation to `u32`. -/
def u32 (n : Nat) : Nat := n % 2 ^ 32

/-- Store to `p->next`. -/
def set_next (mem : Nat → thread_info) (p v : Nat) : Nat → thread_info :=
  fun a => if a = p then { mem a with next := v } else mem a

/-- Store to `p->stackpos`. -/
def set_stackpos (mem : Nat → thread_info) (p v : Nat) : Nat → thread_info :=
  fun a => if a = p then { mem a with stackpos := v } else mem a

/-- Append an external call to the trace. -/
def log (e : Event) (s : Machine) : Machine :=
  { s with trace := s.trace ++ [e] }

/-- The instruction `pushl v`. -/
def pushl (v : Nat) (s : Machine) : Machine :=
  let sp := u32 (s.esp + 2 ^ 32 - 4)
  { s with esp := sp, stk := fun a => if a = sp then v else s.stk a }

/-- The instruction `popl %ebp`. -/
def popl_ebp (s : Machine) : Machine :=
  { s with ebp := s.stk s.esp, esp := u32 (s.esp + 4) }

/-- The instruction `retl`. -/
def retl (s : Machine) : Machine :=
  { s with pc := s.stk s.esp, esp := u32 (s.esp + 4) }

/-- The port read `inb(port)`. -/
def inb (port : Nat) (s : Machine) : Nat × Machine :=
  (s.ports port, log (Event.inb port) s)

/-- The port write `outb(val, port)`. -/
def outb (val port : Nat) (s : Machine) : Machine :=
  log (Event.outb val port)
    { s with ports := fun p => if p = port then val else s.ports p }

/-- Modelled from the spec: the macro `ALIGN_DOWN` of `util.h`, which rounds
`x` down to a multiple of the block size `a`. -/
def ALIGN_DOWN (x a : Nat) : Nat := x - x % a

/-- External `check_irqs()` of `util.c`: recorded in the trace. -/
def check_irqs (s : Machine) : Machine := log Event.check_irqs s

/-- Modelled from the spec: `transition32` of `romlayout.S`, the switch to the
extended mode; it pops the continuation address and sets the protection-enable
bit. -/
def transition32 (cfg : Config) (s : Machine) : Machine :=
  log Event.transition32 { retl s with cr0 := s.cr0 ||| cfg.CR0_PE }

/-- Modelled from the spec: `transition16big` of `romlayout.S`, the switch back
to the restricted mode; it pops the continuation address and clears the
protection-enable bit. -/
def transition16big (cfg : Config) (s : Machine) : Machine :=
  log Event.transition16big { retl s with cr0 := s.cr0 ^^^ (s.cr0 &&& cfg.CR0_PE) }

/-! ## Mode transition bridge -/

/-- The locals of `call32` that are live across the call. -/
structure Call32Saved where
  cmosindex : Nat
  fs : Nat
  gs : Nat
  gdt : Nat
  bkup_ss : Nat
  bkup_esp : Nat

/-- Part of `call32` before `calll %2`: returns the saved locals and the
machine at the entry of the called function. -/
def call32_enter (cfg : Config) (s : Machine) : Call32Saved × Machine :=
  -- Backup cmos index register and disable nmi
  let (cmosindex, s) := inb cfg.PORT_CMOS_INDEX s
  let cmosindex := cmosindex % 2 ^ 8
  let s := outb ((cmosindex ||| cfg.NMI_DISABLE_BIT) % 2 ^ 8) cfg.PORT_CMOS_INDEX s
  let s := (inb cfg.PORT_CMOS_DATA s).2
  -- Backup fs/gs and gdt
  let fs := s.fs
  let gs := s.gs
  let gdt := s.gdt
  -- Backup ss/esp / set esp to flat stack location
  let bkup_ss := s.ss
  let bkup_esp := s.esp
  let s := { s with esp := u32 (s.esp + u32 (bkup_ss * 16)) }
  -- Transition to 32bit mode
  let s := pushl cfg.call32_1 s
  let s := transition32 cfg s
  -- calll %2
  let s := pushl cfg.call32_ret s
  (⟨cmosindex, fs, gs, gdt, bkup_ss, bkup_esp⟩, s)

/-- Part of `call32` after the called function has returned. -/
def call32_leave (cfg : Config) (sv : Call32Saved) (s : Machine) : Machine :=
  -- return of the called function
  let s := retl s
  let s := pushl cfg.call32_2 s
  let s := transition16big cfg s
  -- Restore ds/ss/esp
  let s := { s with ds := sv.bkup_ss, ss := sv.bkup_ss, esp := sv.bkup_esp }
  -- Restore gdt and fs/gs
  let s := { s with gdt := sv.gdt, fs := sv.fs, gs := sv.gs }
  -- Restore cmos index register
  let s := outb sv.cmosindex cfg.PORT_CMOS_INDEX s
  (inb cfg.PORT_CMOS_DATA s).2

/-- Function `call32`: call a 32bit function from 16bit code.  The called
function is given by its effect `func`, so the address arithmetic
`func -= BUILD_BIOS_ADDR` on the call operand has no counterpart. -/
def call32 (cfg : Config) (func : Machine → Outcome Unit) (s : Machine) :
    Outcome Int :=
  let cr0 := s.cr0
  if cr0 &&& cfg.CR0_PE ≠ 0 then
    -- Called in 16bit protected mode?!
    Outcome.returned (-1) s
  else
    let (sv, s) := call32_enter cfg s
    match func s with
    | Outcome.returned _ s => Outcome.returned 0 (call32_leave cfg sv s)
    | Outcome.switched t s => Outcome.switched t s

/-! ## Threads -/

/-- Function `thread_setup`. -/
def thread_setup (cfg : Config) (s : Machine) : Machine :=
  let s := { s with mem := set_next s.mem cfg.MainThread cfg.MainThread }
  let s := { s with mem := set_stackpos s.mem cfg.MainThread 0 }
  { s with CanPreempt := 0 }

/-- Function `getCurThread`: the `struct thread_info` of the running thread,
computed from the stack pointer. -/
def getCurThread (cfg : Config) (esp : Nat) : Nat :=
  if esp ≤ cfg.BUILD_STACK_ADDR then
    cfg.MainThread
  else
    ALIGN_DOWN esp THREADSTACKSIZE

/-- Function `switch_next`: switch to the next thread stack. -/
def switch_next (cfg : Config) (cur : Nat) (s : Machine) : Outcome Unit :=
  let next := (s.mem cur).next
  let s := pushl cfg.switch_next_1 s                        -- store return pc
  let s := pushl s.ebp s                                    -- backup %ebp
  let s := { s with mem := set_stackpos s.mem cur s.esp }   -- cur->stackpos = %esp
  let s := { s with esp := (s.mem next).stackpos }          -- %esp = next->stackpos
  let s := popl_ebp s                                       -- restore %ebp
  let s := retl s                                           -- restore pc
  Outcome.switched next s

/-- Function `yield`: briefly permit irqs to occur. -/
def yield (cfg : Config) (s : Machine) : Outcome Unit :=
  if cfg.MODE16 || !cfg.CONFIG_THREADS then
    -- Just directly check irqs.
    Outcome.returned () (check_irqs s)
  else
    let cur := getCurThread cfg s.esp
    let s := if cur = cfg.MainThread then check_irqs s else s
    -- Switch to the next thread
    switch_next cfg cur s

/-- The `while (pos->next != old) pos = pos->next;` loop of `__end_thread`,
with a bound on the number of iterations. -/
def end_thread_scan (mem : Nat → thread_info) (old : Nat) : Nat → Nat → Option Nat
  | 0, _ => none
  | fuel + 1, pos =>
    if (mem pos).next ≠ old then end_thread_scan mem old fuel (mem pos).next
    else some pos

/-- Function `__end_thread`: last thing called from a thread.  The result is
`none` when the loop does not stop within `fuel` iterations. -/
def __end_thread (cfg : Config) (fuel : Nat) (old : Nat) (s : Machine) :
    Option Machine :=
  match end_thread_scan s.mem old fuel cfg.MainThread with
  | none => none
  | some pos =>
    let s := { s with mem := set_next s.mem pos (s.mem old).next }
    let s := log (Event.free old) s
    some (log (Event.dprintf cfg.DEBUG_thread (u32 old)) s)

/-- Part of `run_thread` from the successful allocation of `thread` up to and
including `calll *%ecx`: the machine at the entry of `func` on the new stack. -/
def run_thread_start (cfg : Config) (thread : Nat) (s : Machine) : Machine :=
  let s := { s with mem := set_stackpos s.mem thread (u32 (thread + THREADSTACKSIZE)) }
  let cur := getCurThread cfg s.esp
  let s := { s with mem := set_next s.mem thread (s.mem cur).next }
  let s := { s with mem := set_next s.mem cur thread }
  let s := log (Event.dprintf cfg.DEBUG_thread (u32 thread)) s
  -- Start thread
  let s := pushl cfg.run_thread_1 s                         -- store return pc
  let s := pushl s.ebp s                                    -- backup %ebp
  let s := { s with mem := set_stackpos s.mem cur s.esp }   -- cur->stackpos = %esp
  let s := { s with esp := (s.mem thread).stackpos }        -- %esp = thread->stackpos
  pushl cfg.run_thread_end s                                -- Call func

/-- Part of `run_thread` after `func` has returned (the `End thread` block). -/
def run_thread_finish (cfg : Config) (fuel : Nat) (thread : Nat) (s : Machine) :
    Option (Outcome Unit) :=
  let s := retl s                                           -- return of func
  let next := (s.mem thread).next                           -- %ecx = thread->next
  let s := { s with esp := (s.mem next).stackpos }          -- %esp = next->stackpos
  let s := pushl cfg.run_thread_fin s                       -- call __end_thread(thread)
  match __end_thread cfg fuel thread s with
  | none => none
  | some s =>
    let s := retl s
    let s := popl_ebp s                                     -- restore %ebp
    let s := retl s                                         -- restore pc
    some (Outcome.switched next s)

/-- Function `run_thread`: create a new thread and start executing `func` in
it.  The value `alloc` is what `memalign_tmphigh` returns (`0` is `NULL`) and
`func data` is the effect of the thread function from its entry to its return. -/
def run_thread (cfg : Config) (fuel : Nat) (func : Nat → Machine → Machine)
    (data : Nat) (alloc : Nat) (s : Machine) : Option (Outcome Unit) :=
  if !cfg.CONFIG_THREADS then
    some (Outcome.returned () (func data s))
  else
    let thread := alloc
    let s := log (Event.memalign_tmphigh THREADSTACKSIZE THREADSTACKSIZE thread) s
    if thread = 0 then
      some (Outcome.returned () (func data s))
    else
      let s := run_thread_start cfg thread s
      let s := func data s
      run_thread_finish cfg fuel thread s

/-! ## Thread preemption -/

/-- Function `start_preempt`. -/
def start_preempt (cfg : Config) (s : Machine) : Machine :=
  if !cfg.CONFIG_THREADS || !cfg.CONFIG_THREAD_OPTIONROMS then s
  else log Event.useRTC { s with CanPreempt := 1, PreemptCount := 0 }

/-- Function `finish_preempt`. -/
def finish_preempt (cfg : Config) (s : Machine) : Machine :=
  if !cfg.CONFIG_THREADS || !cfg.CONFIG_THREAD_OPTIONROMS then s
  else
    let s := log Event.releaseRTC { s with CanPreempt := 0 }
    log (Event.dprintf 1 s.PreemptCount) s

/-- Function `yield_preempt`: try to execute 32bit threads. -/
def yield_preempt (cfg : Config) (s : Machine) : Outcome Unit :=
  let s := { s with PreemptCount := u32 (s.PreemptCount + 1) }
  switch_next cfg cfg.MainThread s

/-- Function `check_preempt`: 16bit code that checks if threads are pending and
executes them if so. -/
def check_preempt (cfg : Config) (s : Machine) : Outcome Unit :=
  if !cfg.CONFIG_THREADS || !cfg.CONFIG_THREAD_OPTIONROMS
      || s.CanPreempt == 0
      || (s.mem cfg.MainThread).next == cfg.MainThread then
    Outcome.returned () s
  else
    match call32 cfg (yield_preempt cfg) s with
    | Outcome.returned _ s => Outcome.returned () s
    | Outcome.switched t s => Outcome.switched t s

/-! ## The ring of threads -/

/-- A chain of `next` links: `a → l₀ → l₁ → ... → z`. -/
def chain (mem : Nat → thread_info) : Nat → List Nat → Nat → Prop
  | a, [], z => (mem a).next = z
  | a, b :: l, z => (mem a).next = b ∧ chain mem b l z

/-- The ring anchored at `main` is well formed and its other members, in
`next` order, are `l`: following `next` from `main` runs through `l` and comes
back to `main`, and no thread is met twice. -/
def IsRing (mem : Nat → thread_info) (main : Nat) (l : List Nat) : Prop :=
  (main :: l).Nodup ∧ chain mem main l main

/-- The ring anchored at `main` is well formed. -/
def RingWF (mem : Nat → thread_info) (main : Nat) : Prop :=
  ∃ l, IsRing mem main l

/-- The successor of a thread: the field `next` read from the heap. -/
def nextOf (mem : Nat → thread_info) (a : Nat) : Nat := (mem a).next

/-- Following `next` from `main` comes back to `main` after `n + 1` steps, and
the threads met on the way (`main` included) are pairwise different. -/
def RingCycle (mem : Nat → thread_info) (main : Nat) : Prop :=
  ∃ n, (nextOf mem)^[n + 1] main = main ∧
    ∀ i j, i < j → j ≤ n → (nextOf mem)^[i] main ≠ (nextOf mem)^[j] main

/-- Walk along `next` from `p` until `stop` is met, at most `fuel` steps. -/
def walk (mem : Nat → thread_info) (stop : Nat) : Nat → Nat → List Nat
  | 0, _ => []
  | fuel + 1, p => if p = stop then [] else p :: walk mem stop fuel (mem p).next

/-- The members of the ring other than `main`, read off the heap. -/
def ring_members (mem : Nat → thread_info) (main : Nat) (fuel : Nat) : List Nat :=
  walk mem main fuel (mem main).next

/-- Members of the ring `a → l → ...` after `thread` is linked in behind `cur`. -/
def ring_insert (cur thread : Nat) : Nat → List Nat → List Nat
  | a, [] => if a = cur then [thread] else []
  | a, b :: l => if a = cur then thread :: b :: l else b :: ring_insert cur thread b l

/-! ## Sample machines -/

/-- A sample 32bit build: threads and option rom threads enabled, the constants
as in SeaBIOS (stack top `0x7c00`, CMOS ports `0x70` and `0x71`). -/
def cfg32 : Config :=
  { MODE16 := false, CONFIG_THREADS := true, CONFIG_THREAD_OPTIONROMS := true,
    BUILD_STACK_ADDR := 0x7c00, CR0_PE := 1, NMI_DISABLE_BIT := 0x80,
    PORT_CMOS_INDEX := 0x70, PORT_CMOS_DATA := 0x71, DEBUG_thread := 2,
    MainThread := 0xf6a10, switch_next_1 := 0xf1000, run_thread_1 := 0xf1100,
    run_thread_end := 0xf1110, run_thread_fin := 0xf1120, call32_1 := 0xf1200,
    call32_ret := 0xf1210, call32_2 := 0xf1220 }

/-- The same build compiled as 16bit code. -/
def cfg16 : Config := { cfg32 with MODE16 := true }

/-- A machine in real mode running on the main stack, all memory zero. -/
def m0 : Machine :=
  { mem := fun _ => ⟨0, 0⟩, stk := fun _ => 0, esp := 0x7000, ebp := 0, pc := 0,
    ss := 0, ds := 0, fs := 0, gs := 0, gdt := 0, cr0 := 0x10,
    ports := fun _ => 0, CanPreempt := 0, PreemptCount := 0, trace := [] }

/-- The machine `m0` after `thread_setup`. -/
def m1 : Machine := thread_setup cfg32 m0

/-- A machine with one thread at `0x10000` behind the main thread, armed for
preemption, in real mode. -/
def m2 : Machine :=
  { (run_thread_start cfg32 0x10000 m1) with esp := 0x6ff0, CanPreempt := 1 }

/-- The machine `m2` in 16bit protected mode. -/
def m2pm : Machine := { m2 with cr0 := 0x11 }

/-- The machine carried by an outcome. -/
def Outcome.machine {α : Type} : Outcome α → Machine
  | Outcome.returned _ s => s
  | Outcome.switched _ s => s

/-- Thread A at `0x10000` has just been started from the main thread. -/
def sA : Machine := run_thread_start cfg32 0x10000 m1

/-- Thread A has yielded: the main thread runs again. -/
def sA1 : Machine := (yield cfg32 sA).machine

/-- Thread B at `0x20000` has just been started from the main thread. -/
def sB : Machine := run_thread_start cfg32 0x20000 sA1

/-- Thread B has yielded: thread A runs again. -/
def sB1 : Machine := (yield cfg32 sB).machine

/-- Thread A has yielded once more: the main thread runs again. -/
def sB2 : Machine := (yield cfg32 sB1).machine

/-- Thread C at `0x30000` has just been started from the main thread. -/
def sC : Machine := run_thread_start cfg32 0x30000 sB2

/-! ## Current thread identification -/

theorem ALIGN_DOWN_spec (x a : Nat) (ha : 0 < a) :
    ALIGN_DOWN x a % a = 0 ∧ ALIGN_DOWN x a ≤ x ∧ x - ALIGN_DOWN x a < a := by
  unfold ALIGN_DOWN
  have h1 : x % a ≤ x := Nat.mod_le x a
  have h2 : x % a < a := Nat.mod_lt x ha
  refine ⟨?_, Nat.sub_le _ _, by omega⟩
  have h3 : x - x % a = a * (x / a) := by
    have := Nat.div_add_mod x a
    omega
  rw [h3]
  exact Nat.mul_mod_right a (x / a)

/-- C7, as stated, fails at the boundary: with the stack pointer equal to
BUILD_STACK_ADDR (not below it) the sample build answers MainThread, not the
block at the stack pointer rounded down to 4096. -/
theorem getCurThread_boundary_counterexample :
    ¬ (∀ esp : Nat, esp < 2 ^ 32 →
        (esp < cfg32.BUILD_STACK_ADDR → getCurThread cfg32 esp = cfg32.MainThread) ∧
        (¬ esp < cfg32.BUILD_STACK_ADDR →
          getCurThread cfg32 esp = ALIGN_DOWN esp THREADSTACKSIZE)) := by
  intro h
  have h1 := (h 0x7c00 (by norm_num)).2 (by decide)
  revert h1
  decide

/-- C7 (amended): `getCurThread` answers MainThread when the stack pointer is
at or below BUILD_STACK_ADDR, and otherwise the stack pointer rounded down to a
multiple of 4096 (a multiple of 4096, at most 4095 below the stack pointer).
The answer depends on the stack pointer only, whatever the heap holds. -/
theorem getCurThread_spec (cfg : Config) (s : Machine) (mem : Nat → thread_info) :
    (s.esp ≤ cfg.BUILD_STACK_ADDR → getCurThread cfg s.esp = cfg.MainThread) ∧
    (cfg.BUILD_STACK_ADDR < s.esp →
      getCurThread cfg s.esp = ALIGN_DOWN s.esp THREADSTACKSIZE ∧
      getCurThread cfg s.esp % 4096 = 0 ∧
      getCurThread cfg s.esp ≤ s.esp ∧
      s.esp - getCurThread cfg s.esp < 4096) ∧
    getCurThread cfg { s with mem := mem }.esp = getCurThread cfg s.esp := by
  refine ⟨?_, ?_, rfl⟩
  · intro h
    simp [getCurThread, h]
  · intro h
    have hn : ¬ s.esp ≤ cfg.BUILD_STACK_ADDR := by omega
    have := ALIGN_DOWN_spec s.esp THREADSTACKSIZE (by decide)
    have hg : getCurThread cfg s.esp = ALIGN_DOWN s.esp THREADSTACKSIZE := by
      simp [getCurThread, hn]
    rw [hg]
    exact ⟨rfl, this.1, this.2.1, this.2.2⟩

theorem getCurThread_spec_witness :
    (m2.esp ≤ cfg32.BUILD_STACK_ADDR → getCurThread cfg32 m2.esp = cfg32.MainThread) ∧
    (cfg32.BUILD_STACK_ADDR < m2.esp →
      getCurThread cfg32 m2.esp = ALIGN_DOWN m2.esp THREADSTACKSIZE ∧
      getCurThread cfg32 m2.esp % 4096 = 0 ∧
      getCurThread cfg32 m2.esp ≤ m2.esp ∧
      m2.esp - getCurThread cfg32 m2.esp < 4096) ∧
    getCurThread cfg32 { m2 with mem := m0.mem }.esp = getCurThread cfg32 m2.esp :=
  getCurThread_spec cfg32 m2 m0.mem

/-- C10: for a 4096-aligned block base `t` above BUILD_STACK_ADDR, every stack
pointer inside the block `[t, t + 4096)` is identified as `t` (so it is not
identified as any other block, the answer is 4096-aligned and less than 4096
below the stack pointer).  The saved stack top that `run_thread` stores in the
new thread is `t + 4096` (when the caller does not itself run on the new
block), and that value is not identified as `t` (when `t + 4096` fits in 32
bits, or else when the block is not the MainThread object). -/
theorem getCurThread_block (cfg : Config) (t : Nat)
    (halign : t % THREADSTACKSIZE = 0) (hlow : cfg.BUILD_STACK_ADDR < t) :
    (∀ esp, t ≤ esp → esp < t + THREADSTACKSIZE →
      getCurThread cfg esp = t ∧ getCurThread cfg esp % THREADSTACKSIZE = 0 ∧
      esp - getCurThread cfg esp < THREADSTACKSIZE ∧
      ∀ t2, t2 ≠ t → getCurThread cfg esp ≠ t2) ∧
    (∀ s : Machine, getCurThread cfg s.esp ≠ t →
      ((run_thread_start cfg t s).mem t).stackpos = u32 (t + THREADSTACKSIZE)) ∧
    (t + THREADSTACKSIZE < 2 ^ 32 ∨ cfg.MainThread ≠ t →
      getCurThread cfg (u32 (t + THREADSTACKSIZE)) ≠ t) := by
  simp only [THREADSTACKSIZE] at halign
  refine ⟨?_, ?_, ?_⟩
  · intro esp h1 h2
    simp only [THREADSTACKSIZE] at h2
    have hn : ¬ esp ≤ cfg.BUILD_STACK_ADDR := by omega
    have hg : getCurThread cfg esp = t := by
      simp only [getCurThread, hn, if_false, ALIGN_DOWN, THREADSTACKSIZE]
      omega
    rw [hg]
    refine ⟨rfl, halign, ?_, ?_⟩
    · simp only [THREADSTACKSIZE]
      omega
    · intro t2 h
      exact fun h3 => h h3.symm
  · intro s hcur
    have hcur2 : ¬ t = getCurThread cfg s.esp := fun h => hcur h.symm
    simp [run_thread_start, set_stackpos, set_next, log, pushl, hcur2]
  · intro hm
    unfold getCurThread
    split
    · rename_i hle
      rcases hm with hm | hm
      · simp only [THREADSTACKSIZE, u32] at hm hle
        omega
      · exact hm
    · rename_i hn
      simp only [ALIGN_DOWN, THREADSTACKSIZE, u32] at hn ⊢
      omega

theorem getCurThread_block_witness :
    (∀ esp, 0x10000 ≤ esp → esp < 0x10000 + THREADSTACKSIZE →
      getCurThread cfg32 esp = 0x10000 ∧ getCurThread cfg32 esp % THREADSTACKSIZE = 0 ∧
      esp - getCurThread cfg32 esp < THREADSTACKSIZE ∧
      ∀ t2, t2 ≠ 0x10000 → getCurThread cfg32 esp ≠ t2) ∧
    (∀ s : Machine, getCurThread cfg32 s.esp ≠ 0x10000 →
      ((run_thread_start cfg32 0x10000 s).mem 0x10000).stackpos
        = u32 (0x10000 + THREADSTACKSIZE)) ∧
    (0x10000 + THREADSTACKSIZE < 2 ^ 32 ∨ cfg32.MainThread ≠ 0x10000 →
      getCurThread cfg32 (u32 (0x10000 + THREADSTACKSIZE)) ≠ 0x10000) :=
  getCurThread_block cfg32 0x10000 (by decide) (by decide)

/-! ## Mode transition bridge -/

/-- C4: when the protection-enable bit of CR0 is set, `call32` returns -1 with
the machine exactly as it was (ports, trace of port accesses, FS, GS, GDT, SS
and ESP included), whatever the called function is: it is not run. -/
theorem call32_protected (cfg : Config) (func : Machine → Outcome Unit) (s : Machine)
    (hpe : s.cr0 &&& cfg.CR0_PE ≠ 0) :
    call32 cfg func s = Outcome.returned (-1) s ∧
    ∀ func2 : Machine → Outcome Unit, call32 cfg func2 s = call32 cfg func s := by
  have h : ∀ f : Machine → Outcome Unit, call32 cfg f s = Outcome.returned (-1) s := by
    intro f
    simp [call32, hpe]
  exact ⟨h func, fun f => by rw [h f, h func]⟩

theorem call32_protected_witness :
    call32 cfg16 (yield_preempt cfg16) m2pm = Outcome.returned (-1) m2pm ∧
    ∀ func2 : Machine → Outcome Unit,
      call32 cfg16 func2 m2pm = call32 cfg16 (yield_preempt cfg16) m2pm :=
  call32_protected cfg16 (yield_preempt cfg16) m2pm (by decide)

/-- In real mode `call32` does touch the machine: the first thing it does is
read and write the CMOS index port. -/
theorem call32_enter_trace (cfg : Config) (s : Machine) :
    ∃ rest, (call32_enter cfg s).2.trace =
      s.trace ++ Event.inb cfg.PORT_CMOS_INDEX ::
        Event.outb ((s.ports cfg.PORT_CMOS_INDEX % 2 ^ 8 ||| cfg.NMI_DISABLE_BIT) % 2 ^ 8)
          cfg.PORT_CMOS_INDEX :: rest := by
  refine ⟨[Event.inb cfg.PORT_CMOS_DATA, Event.transition32], ?_⟩
  simp [call32_enter, inb, outb, log, pushl, transition32, retl]

/-! ## Stack switch -/

theorem set_stackpos_next (mem : Nat → thread_info) (p v a : Nat) :
    (set_stackpos mem p v a).next = (mem a).next := by
  unfold set_stackpos
  split <;> rfl

theorem chain_congr (mem mem2 : Nat → thread_info)
    (h : ∀ a, (mem2 a).next = (mem a).next) (l : List Nat) (a z : Nat) :
    chain mem a l z → chain mem2 a l z := by
  induction l generalizing a with
  | nil => simp only [chain, h]; exact id
  | cons b l ih =>
    simp only [chain, h]
    exact fun hc => ⟨hc.1, ih b hc.2⟩

theorem isRing_congr (mem mem2 : Nat → thread_info)
    (h : ∀ a, (mem2 a).next = (mem a).next) (main : Nat) (l : List Nat) :
    IsRing mem main l → IsRing mem2 main l :=
  fun hr => ⟨hr.1, chain_congr mem mem2 h l main main hr.2⟩

/-- What `switch_next(cur)` does: `cur->stackpos` receives the stack pointer
as it is after the two pushes, the stack pointer is loaded from the `stackpos`
of `cur->next` and moved up by the two pops, and control goes to `cur->next`. -/
theorem switch_next_spec (cfg : Config) (cur : Nat) (s : Machine) :
    ∃ s2, switch_next cfg cur s = Outcome.switched (s.mem cur).next s2 ∧
      s2.mem = set_stackpos s.mem cur (u32 (u32 (s.esp + 2 ^ 32 - 4) + 2 ^ 32 - 4)) ∧
      s2.esp = u32 (u32 ((s2.mem (s.mem cur).next).stackpos + 4) + 4) ∧
      s2.PreemptCount = s.PreemptCount ∧ s2.CanPreempt = s.CanPreempt ∧
      s2.trace = s.trace ∧ s2.cr0 = s.cr0 ∧ s2.ports = s.ports := by
  refine ⟨_, rfl, ?_, ?_, ?_, ?_, ?_, ?_, ?_⟩ <;>
    simp [retl, popl_ebp, pushl, set_stackpos]

/-- The frame `switch_next` resumes from: %ebp and the return address are read
from the two words at the saved stack top of `cur->next`. -/
theorem switch_next_frame (cfg : Config) (cur : Nat) (s : Machine) :
    ∃ s2, switch_next cfg cur s = Outcome.switched (s.mem cur).next s2 ∧
      s2.stk = (pushl s.ebp (pushl cfg.switch_next_1 s)).stk ∧
      s2.ebp = s2.stk (s2.mem (s.mem cur).next).stackpos ∧
      s2.pc = s2.stk (u32 ((s2.mem (s.mem cur).next).stackpos + 4)) := by
  refine ⟨_, rfl, ?_, ?_, ?_⟩ <;>
    simp [retl, popl_ebp, pushl, set_stackpos]

/-! ## Thread preemption -/

theorem isRing_nil (mem : Nat → thread_info) (main : Nat) :
    IsRing mem main [] ↔ (mem main).next = main := by
  simp [IsRing, chain]

/-- C5: when preemption is not armed, or the ring holds MainThread only, or
threads or option rom threads are configured out, `check_preempt` returns with
the machine exactly as it was: no switch, PreemptCount, ring and trace (hence
no port access of `call32`) unchanged. -/
theorem check_preempt_noop (cfg : Config) (s : Machine)
    (h : s.CanPreempt = 0 ∨ IsRing s.mem cfg.MainThread [] ∨
      cfg.CONFIG_THREADS = false ∨ cfg.CONFIG_THREAD_OPTIONROMS = false) :
    check_preempt cfg s = Outcome.returned () s := by
  rw [isRing_nil] at h
  rcases h with h | h | h | h <;> simp [check_preempt, h]

theorem check_preempt_noop_witness :
    check_preempt cfg16 m1 = Outcome.returned () m1 :=
  check_preempt_noop cfg16 m1 (Or.inl rfl)

/-- C6, as stated, fails: with preemption configured and armed and a thread
behind MainThread, but the processor in 16bit protected mode, `check_preempt`
returns with PreemptCount not incremented and without any switch. -/
theorem check_preempt_protected_counterexample :
    cfg16.CONFIG_THREADS = true ∧ cfg16.CONFIG_THREAD_OPTIONROMS = true ∧
    m2pm.CanPreempt ≠ 0 ∧ IsRing m2pm.mem cfg16.MainThread [0x10000] ∧
    check_preempt cfg16 m2pm = Outcome.returned () m2pm ∧
    ¬ (∃ s2, check_preempt cfg16 m2pm = Outcome.switched 0x10000 s2 ∧
        s2.PreemptCount = m2pm.PreemptCount + 1) := by
  have hret : check_preempt cfg16 m2pm = Outcome.returned () m2pm := by
    have hpe : m2pm.cr0 &&& cfg16.CR0_PE ≠ 0 := by decide
    have hc : call32 cfg16 (yield_preempt cfg16) m2pm = Outcome.returned (-1) m2pm := by
      simp [call32, hpe]
    have hg : (!cfg16.CONFIG_THREADS || !cfg16.CONFIG_THREAD_OPTIONROMS
        || m2pm.CanPreempt == 0
        || (m2pm.mem cfg16.MainThread).next == cfg16.MainThread) = false := by decide
    simp only [check_preempt, hg, hc]
    rfl
  refine ⟨rfl, rfl, by decide, ?_, hret, ?_⟩
  · refine ⟨by decide, ?_⟩
    simp only [chain]
    decide
  · rintro ⟨s2, h, -⟩
    rw [hret] at h
    cases h

/-- C6 (amended): with preemption configured and armed, a thread behind
MainThread, and the protection-enable bit of CR0 clear, `check_preempt` goes
through `call32` (the CMOS index port is read and written first) into
`yield_preempt`, which adds one to PreemptCount modulo 2^32 and performs
`switch_next(&MainThread)`: the flat stack pointer, after the pushes of the
return addresses and of %ebp, is saved in `MainThread.stackpos`, the stack
pointer is loaded from the `stackpos` of `MainThread.next`, control goes to
`MainThread.next`, and no `next` link changes. -/
theorem check_preempt_switch (cfg : Config) (s : Machine)
    (hthreads : cfg.CONFIG_THREADS = true) (hrom : cfg.CONFIG_THREAD_OPTIONROMS = true)
    (harmed : s.CanPreempt ≠ 0) (hring : (s.mem cfg.MainThread).next ≠ cfg.MainThread)
    (hpe : s.cr0 &&& cfg.CR0_PE = 0) :
    ∃ s2, check_preempt cfg s = Outcome.switched (s.mem cfg.MainThread).next s2 ∧
      check_preempt cfg s = yield_preempt cfg (call32_enter cfg s).2 ∧
      yield_preempt cfg (call32_enter cfg s).2 =
        switch_next cfg cfg.MainThread
          { (call32_enter cfg s).2 with PreemptCount := u32 (s.PreemptCount + 1) } ∧
      s2.PreemptCount = u32 (s.PreemptCount + 1) ∧
      (s.PreemptCount < 2 ^ 32 - 1 → s2.PreemptCount = s.PreemptCount + 1) ∧
      (s2.mem cfg.MainThread).stackpos
        = u32 (u32 ((call32_enter cfg s).2.esp + 2 ^ 32 - 4) + 2 ^ 32 - 4) ∧
      s2.esp = u32 (u32 ((s2.mem (s.mem cfg.MainThread).next).stackpos + 4) + 4) ∧
      (∀ a, (s2.mem a).next = (s.mem a).next) ∧
      (∀ l, IsRing s.mem cfg.MainThread l → IsRing s2.mem cfg.MainThread l) := by
  have hg : (!cfg.CONFIG_THREADS || !cfg.CONFIG_THREAD_OPTIONROMS
      || s.CanPreempt == 0
      || (s.mem cfg.MainThread).next == cfg.MainThread) = false := by
    simp [hthreads, hrom, harmed, hring]
  have hmem : (call32_enter cfg s).2.mem = s.mem := rfl
  have hcnt : (call32_enter cfg s).2.PreemptCount = s.PreemptCount := rfl
  have hy : yield_preempt cfg (call32_enter cfg s).2 =
      switch_next cfg cfg.MainThread
        { (call32_enter cfg s).2 with PreemptCount := u32 (s.PreemptCount + 1) } := rfl
  obtain ⟨s2, hsw, hm2, hesp, hc2, -, -, -, -⟩ := switch_next_spec cfg cfg.MainThread
    { (call32_enter cfg s).2 with PreemptCount := u32 (s.PreemptCount + 1) }
  replace hsw : switch_next cfg cfg.MainThread
      { (call32_enter cfg s).2 with PreemptCount := u32 (s.PreemptCount + 1) } =
      Outcome.switched (s.mem cfg.MainThread).next s2 := hsw
  replace hm2 : s2.mem = set_stackpos s.mem cfg.MainThread
      (u32 (u32 ((call32_enter cfg s).2.esp + 2 ^ 32 - 4) + 2 ^ 32 - 4)) := hm2
  replace hesp : s2.esp =
      u32 (u32 ((s2.mem (s.mem cfg.MainThread).next).stackpos + 4) + 4) := hesp
  replace hc2 : s2.PreemptCount = u32 (s.PreemptCount + 1) := hc2
  have hcall : call32 cfg (yield_preempt cfg) s = Outcome.switched (s.mem cfg.MainThread).next s2 := by
    simp only [call32, hpe, ne_eq, not_true_eq_false, if_false, hy, hsw]
  have hcp : check_preempt cfg s = Outcome.switched (s.mem cfg.MainThread).next s2 := by
    simp only [check_preempt, hg, hcall]
    rfl
  have hlinks : ∀ a, (s2.mem a).next = (s.mem a).next := by
    intro a
    rw [hm2]
    exact set_stackpos_next _ _ _ _
  refine ⟨s2, hcp, ?_, hy, hc2, ?_, ?_, hesp, hlinks, ?_⟩
  · rw [hcp, hy, hsw]
  · intro hlt
    rw [hc2]
    show (s.PreemptCount + 1) % 2 ^ 32 = s.PreemptCount + 1
    exact Nat.mod_eq_of_lt (by omega)
  · rw [hm2]
    simp [set_stackpos]
  · intro l
    exact isRing_congr s.mem s2.mem hlinks cfg.MainThread l

theorem check_preempt_switch_witness :
    ∃ s2, check_preempt cfg16 m2 = Outcome.switched (m2.mem cfg16.MainThread).next s2 ∧
      check_preempt cfg16 m2 = yield_preempt cfg16 (call32_enter cfg16 m2).2 ∧
      yield_preempt cfg16 (call32_enter cfg16 m2).2 =
        switch_next cfg16 cfg16.MainThread
          { (call32_enter cfg16 m2).2 with PreemptCount := u32 (m2.PreemptCount + 1) } ∧
      s2.PreemptCount = u32 (m2.PreemptCount + 1) ∧
      (m2.PreemptCount < 2 ^ 32 - 1 → s2.PreemptCount = m2.PreemptCount + 1) ∧
      (s2.mem cfg16.MainThread).stackpos
        = u32 (u32 ((call32_enter cfg16 m2).2.esp + 2 ^ 32 - 4) + 2 ^ 32 - 4) ∧
      s2.esp = u32 (u32 ((s2.mem (m2.mem cfg16.MainThread).next).stackpos + 4) + 4) ∧
      (∀ a, (s2.mem a).next = (m2.mem a).next) ∧
      (∀ l, IsRing m2.mem cfg16.MainThread l → IsRing s2.mem cfg16.MainThread l) :=
  check_preempt_switch cfg16 m2 rfl rfl (by decide) (by decide) (by decide)

/-! ## Cooperative scheduler -/

/-- C2: in 32bit code with threads enabled, `yield` called while `c` is the
current thread is `switch_next(c)`, preceded by `check_irqs` exactly when `c`
is MainThread: the stack pointer (as it is after the pushes of the return
address and %ebp) is stored in `c->stackpos`, the stack pointer, %ebp and the
return address are loaded from the saved stack top of `c->next`, control goes
to `c->next`, and no `next` link changes.  So a thread other than MainThread
whose successor is not MainThread does not hand control to MainThread. -/
theorem yield_switch (cfg : Config) (s : Machine) (c : Nat)
    (hmode : cfg.MODE16 = false) (hthreads : cfg.CONFIG_THREADS = true)
    (hcur : getCurThread cfg s.esp = c) :
    ∃ s2, yield cfg s = Outcome.switched (s.mem c).next s2 ∧
      yield cfg s = switch_next cfg c (if c = cfg.MainThread then check_irqs s else s) ∧
      (s2.mem c).stackpos = u32 (u32 (s.esp + 2 ^ 32 - 4) + 2 ^ 32 - 4) ∧
      s2.esp = u32 (u32 ((s2.mem (s.mem c).next).stackpos + 4) + 4) ∧
      s2.ebp = s2.stk (s2.mem (s.mem c).next).stackpos ∧
      s2.pc = s2.stk (u32 ((s2.mem (s.mem c).next).stackpos + 4)) ∧
      s2.trace = s.trace ++ (if c = cfg.MainThread then [Event.check_irqs] else []) ∧
      (∀ a, (s2.mem a).next = (s.mem a).next) ∧
      (∀ l, IsRing s.mem cfg.MainThread l → IsRing s2.mem cfg.MainThread l) ∧
      ((s.mem c).next ≠ cfg.MainThread →
        ∀ s3, yield cfg s ≠ Outcome.switched cfg.MainThread s3) := by
  have hy : yield cfg s =
      switch_next cfg c (if c = cfg.MainThread then check_irqs s else s) := by
    simp [yield, hmode, hthreads, hcur]
  have hmem : (if c = cfg.MainThread then check_irqs s else s).mem = s.mem := by
    split <;> rfl
  have hesp0 : (if c = cfg.MainThread then check_irqs s else s).esp = s.esp := by
    split <;> rfl
  have htr0 : (if c = cfg.MainThread then check_irqs s else s).trace
      = s.trace ++ (if c = cfg.MainThread then [Event.check_irqs] else []) := by
    split <;> simp [check_irqs, log]
  obtain ⟨s2, hsw, hm2, hesp, -, -, htr, -, -⟩ :=
    switch_next_spec cfg c (if c = cfg.MainThread then check_irqs s else s)
  obtain ⟨s2b, hswb, -, hebp, hpc⟩ :=
    switch_next_frame cfg c (if c = cfg.MainThread then check_irqs s else s)
  rw [hsw] at hswb
  cases hswb
  rw [hmem] at hsw hm2 hesp hebp hpc
  rw [hesp0] at hm2
  have hlinks : ∀ a, (s2.mem a).next = (s.mem a).next := by
    intro a
    rw [hm2]
    exact set_stackpos_next _ _ _ _
  refine ⟨s2, hy.trans hsw, hy, ?_, hesp, hebp, hpc, htr.trans htr0, hlinks, ?_, ?_⟩
  · rw [hm2]
    simp [set_stackpos]
  · intro l
    exact isRing_congr s.mem s2.mem hlinks cfg.MainThread l
  · intro hne s3 h
    rw [hy, hsw] at h
    injection h with h1 _
    exact hne h1

/-- C3: with threads configured out, or when `memalign_tmphigh` returns NULL,
`run_thread` is one call `func(data)` on the machine as the caller left it
(same stack pointer, same heap, same stack; only the call of the allocator is
added to the trace when threads are configured), and it returns: there is no
switch.  If `func` changes no `next` link, the ring after the call is the ring
before the call. -/
theorem run_thread_fallback (cfg : Config) (fuel : Nat) (func : Nat → Machine → Machine)
    (data alloc : Nat) (s : Machine)
    (h : cfg.CONFIG_THREADS = false ∨ alloc = 0) :
    ∃ s0, run_thread cfg fuel func data alloc s
        = some (Outcome.returned () (func data s0)) ∧
      s0.mem = s.mem ∧ s0.stk = s.stk ∧ s0.esp = s.esp ∧ s0.ebp = s.ebp ∧
      getCurThread cfg s0.esp = getCurThread cfg s.esp ∧
      s0.trace = s.trace ++
        (if cfg.CONFIG_THREADS = true
          then [Event.memalign_tmphigh THREADSTACKSIZE THREADSTACKSIZE 0] else []) ∧
      ((∀ a, ((func data s0).mem a).next = (s0.mem a).next) →
        (∀ a, ((func data s0).mem a).next = (s.mem a).next) ∧
        ∀ l, IsRing (func data s0).mem cfg.MainThread l ↔ IsRing s.mem cfg.MainThread l) := by
  have key : ∀ s0 : Machine, s0.mem = s.mem →
      ((∀ a, ((func data s0).mem a).next = (s0.mem a).next) →
        (∀ a, ((func data s0).mem a).next = (s.mem a).next) ∧
        ∀ l, IsRing (func data s0).mem cfg.MainThread l ↔ IsRing s.mem cfg.MainThread l) := by
    intro s0 hm hf
    rw [hm] at hf
    exact ⟨hf, fun l => ⟨isRing_congr _ _ (fun a => (hf a).symm) _ l,
      isRing_congr _ _ hf _ l⟩⟩
  by_cases hc : cfg.CONFIG_THREADS = true
  · have ha : alloc = 0 := by
      rcases h with h | h
      · rw [hc] at h
        cases h
      · exact h
    subst ha
    refine ⟨log (Event.memalign_tmphigh THREADSTACKSIZE THREADSTACKSIZE 0) s,
      ?_, rfl, rfl, rfl, rfl, rfl, ?_, key _ rfl⟩
    · simp [run_thread, hc]
    · simp [log, hc]
  · have hc2 : cfg.CONFIG_THREADS = false := by
      cases hcc : cfg.CONFIG_THREADS
      · rfl
      · exact absurd hcc hc
    refine ⟨s, ?_, rfl, rfl, rfl, rfl, rfl, ?_, key _ rfl⟩
    · simp [run_thread, hc2]
    · simp [hc2]

theorem yield_switch_witness :
    ∃ s2, yield cfg32 sB = Outcome.switched (sB.mem 0x20000).next s2 ∧
      yield cfg32 sB
        = switch_next cfg32 0x20000 (if 0x20000 = cfg32.MainThread then check_irqs sB else sB) ∧
      (s2.mem 0x20000).stackpos = u32 (u32 (sB.esp + 2 ^ 32 - 4) + 2 ^ 32 - 4) ∧
      s2.esp = u32 (u32 ((s2.mem (sB.mem 0x20000).next).stackpos + 4) + 4) ∧
      s2.ebp = s2.stk (s2.mem (sB.mem 0x20000).next).stackpos ∧
      s2.pc = s2.stk (u32 ((s2.mem (sB.mem 0x20000).next).stackpos + 4)) ∧
      s2.trace = sB.trace ++ (if 0x20000 = cfg32.MainThread then [Event.check_irqs] else []) ∧
      (∀ a, (s2.mem a).next = (sB.mem a).next) ∧
      (∀ l, IsRing sB.mem cfg32.MainThread l → IsRing s2.mem cfg32.MainThread l) ∧
      ((sB.mem 0x20000).next ≠ cfg32.MainThread →
        ∀ s3, yield cfg32 sB ≠ Outcome.switched cfg32.MainThread s3) :=
  yield_switch cfg32 sB 0x20000 rfl rfl (by decide)

theorem run_thread_fallback_witness :
    ∃ s0, run_thread cfg32 0 (fun d m => log (Event.dprintf 1 d) m) 7 0 sA1
        = some (Outcome.returned () ((fun d m => log (Event.dprintf 1 d) m) 7 s0)) ∧
      s0.mem = sA1.mem ∧ s0.stk = sA1.stk ∧ s0.esp = sA1.esp ∧ s0.ebp = sA1.ebp ∧
      getCurThread cfg32 s0.esp = getCurThread cfg32 sA1.esp ∧
      s0.trace = sA1.trace ++
        (if cfg32.CONFIG_THREADS = true
          then [Event.memalign_tmphigh THREADSTACKSIZE THREADSTACKSIZE 0] else []) ∧
      ((∀ a, (((fun d m => log (Event.dprintf 1 d) m) 7 s0).mem a).next = (s0.mem a).next) →
        (∀ a, (((fun d m => log (Event.dprintf 1 d) m) 7 s0).mem a).next = (sA1.mem a).next) ∧
        ∀ l, IsRing ((fun d m => log (Event.dprintf 1 d) m) 7 s0).mem cfg32.MainThread l
          ↔ IsRing sA1.mem cfg32.MainThread l) :=
  run_thread_fallback cfg32 0 (fun d m => log (Event.dprintf 1 d) m) 7 0 sA1 (Or.inr rfl)

/-! ## The ring: insertion -/

theorem set_next_next (mem : Nat → thread_info) (p v a : Nat) :
    (set_next mem p v a).next = if a = p then v else (mem a).next := by
  unfold set_next
  split <;> rfl

theorem chain_congr_on (mem mem2 : Nat → thread_info) (l : List Nat) (a z : Nat)
    (h : ∀ x ∈ a :: l, (mem2 x).next = (mem x).next) :
    chain mem a l z → chain mem2 a l z := by
  induction l generalizing a with
  | nil =>
    simp only [chain, h a (List.mem_cons_self a [])]
    exact id
  | cons b l ih =>
    simp only [chain, h a (List.mem_cons_self a _)]
    exact fun hc => ⟨hc.1, ih b (fun x hx => h x (List.mem_cons_of_mem a hx)) hc.2⟩

theorem mem_ring_insert (cur thread : Nat) (l : List Nat) (a x : Nat) :
    x ∈ ring_insert cur thread a l → x = thread ∨ x ∈ l := by
  induction l generalizing a with
  | nil =>
    unfold ring_insert
    split <;> simp
  | cons b l ih =>
    unfold ring_insert
    split
    · intro hx
      rcases List.mem_cons.1 hx with h | h
      · exact Or.inl h
      · exact Or.inr h
    · intro hx
      rcases List.mem_cons.1 hx with h | h
      · exact Or.inr (h ▸ List.mem_cons_self b l)
      · rcases ih b h with h2 | h2
        · exact Or.inl h2
        · exact Or.inr (List.mem_cons_of_mem b h2)

theorem nodup_ring_insert (cur thread : Nat) (l : List Nat) (a : Nat)
    (hnd : (a :: l).Nodup) (hfresh : thread ∉ a :: l) :
    (a :: ring_insert cur thread a l).Nodup := by
  induction l generalizing a with
  | nil =>
    unfold ring_insert
    split
    · simp only [List.mem_cons, List.mem_singleton, List.not_mem_nil, or_false] at hfresh
      simp [Ne.symm hfresh]
    · simp
  | cons b l ih =>
    have hab : a ∉ b :: l := (List.nodup_cons.1 hnd).1
    have hbl : (b :: l).Nodup := (List.nodup_cons.1 hnd).2
    have hta : thread ≠ a := fun h => hfresh (h ▸ List.mem_cons_self a _)
    have htbl : thread ∉ b :: l := fun h => hfresh (List.mem_cons_of_mem a h)
    unfold ring_insert
    split
    · refine List.nodup_cons.2 ⟨?_, List.nodup_cons.2 ⟨htbl, hbl⟩⟩
      intro h
      rcases List.mem_cons.1 h with h | h
      · exact hta h.symm
      · exact hab h
    · refine List.nodup_cons.2 ⟨?_, ih b hbl htbl⟩
      intro h
      rcases List.mem_cons.1 h with h | h
      · exact hab (h ▸ List.mem_cons_self b l)
      · rcases mem_ring_insert cur thread l b a h with h2 | h2
        · exact hta h2.symm
        · exact hab (List.mem_cons_of_mem b h2)

/-- Linking `thread` in behind `cur` turns the chain `a → l → z` into the chain
through `ring_insert cur thread a l`. -/
theorem chain_ring_insert (mem mem2 : Nat → thread_info) (cur thread z : Nat)
    (l : List Nat) (a : Nat)
    (hnd : (a :: l).Nodup) (hfresh : thread ∉ a :: l)
    (hcur : thread ≠ cur → (mem2 cur).next = thread)
    (hthread : thread ≠ cur → (mem2 thread).next = (mem cur).next)
    (hother : ∀ x, x ≠ cur → x ≠ thread → (mem2 x).next = (mem x).next) :
    chain mem a l z → chain mem2 a (ring_insert cur thread a l) z := by
  induction l generalizing a with
  | nil =>
    have hta : thread ≠ a := fun h => hfresh (h ▸ List.mem_cons_self a _)
    intro hc
    simp only [chain] at hc
    unfold ring_insert
    split
    · rename_i hac
      subst hac
      simp only [chain]
      exact ⟨hcur hta, by rw [hthread hta, hc]⟩
    · rename_i hac
      simp only [chain]
      rw [hother a hac (Ne.symm hta), hc]
  | cons b l ih =>
    have hab : a ∉ b :: l := (List.nodup_cons.1 hnd).1
    have hbl : (b :: l).Nodup := (List.nodup_cons.1 hnd).2
    have hta : thread ≠ a := fun h => hfresh (h ▸ List.mem_cons_self a _)
    have htbl : thread ∉ b :: l := fun h => hfresh (List.mem_cons_of_mem a h)
    intro hc
    simp only [chain] at hc
    unfold ring_insert
    split
    · rename_i hac
      subst hac
      simp only [chain]
      refine ⟨hcur hta, by rw [hthread hta, hc.1], ?_⟩
      refine chain_congr_on mem mem2 l b z ?_ hc.2
      intro x hx
      exact hother x (fun h => hab (h ▸ hx)) (fun h => htbl (h ▸ hx))
    · rename_i hac
      simp only [chain]
      refine ⟨by rw [hother a hac (Ne.symm hta), hc.1], ?_⟩
      exact ih b hbl htbl hc.2

/-- The `next` links after the start of a thread: `thread->next = cur->next`
then `cur->next = thread`, for `cur` the current thread. -/
theorem run_thread_start_next (cfg : Config) (thread : Nat) (s : Machine) (a : Nat) :
    ((run_thread_start cfg thread s).mem a).next =
      (set_next (set_next s.mem thread (s.mem (getCurThread cfg s.esp)).next)
        (getCurThread cfg s.esp) thread a).next := by
  simp only [run_thread_start, log, pushl, set_stackpos_next, set_next_next]

/-- Insertion keeps the ring well formed: the new ring is the old one with
`thread` behind the current thread. -/
theorem run_thread_start_ring (cfg : Config) (thread : Nat) (s : Machine) (l : List Nat)
    (hring : IsRing s.mem cfg.MainThread l) (hfresh : thread ∉ cfg.MainThread :: l) :
    IsRing (run_thread_start cfg thread s).mem cfg.MainThread
      (ring_insert (getCurThread cfg s.esp) thread cfg.MainThread l) := by
  refine ⟨nodup_ring_insert _ _ _ _ hring.1 hfresh, ?_⟩
  refine chain_ring_insert s.mem _ (getCurThread cfg s.esp) thread cfg.MainThread l
    cfg.MainThread hring.1 hfresh ?_ ?_ ?_ hring.2
  · intro h
    rw [run_thread_start_next]
    simp [set_next_next]
  · intro h
    rw [run_thread_start_next]
    simp [set_next_next, h]
  · intro x h1 h2
    rw [run_thread_start_next]
    simp [set_next_next, h1, h2]

theorem yield_next (cfg : Config) (s : Machine) (a : Nat) :
    ((yield cfg s).machine.mem a).next = (s.mem a).next := by
  unfold yield
  split
  · rfl
  · simp only [switch_next, Outcome.machine, retl, popl_ebp, pushl, set_stackpos_next]
    split <;> rfl

/-- C1, as stated, fails: start threads A, B, C (at `0x10000`, `0x20000`,
`0x30000`) from the main thread, each started thread yielding until the main
thread runs again and none ending.  After the third start the ring is
MainThread, C, B, A and not MainThread, A, B, C. -/
theorem run_thread_order_counterexample :
    IsRing m1.mem cfg32.MainThread [] ∧
    getCurThread cfg32 m1.esp = cfg32.MainThread ∧
    getCurThread cfg32 sA1.esp = cfg32.MainThread ∧
    getCurThread cfg32 sB2.esp = cfg32.MainThread ∧
    ¬ IsRing sC.mem cfg32.MainThread [0x10000, 0x20000, 0x30000] := by
  refine ⟨⟨by decide, ?_⟩, by decide, by decide, by decide, ?_⟩
  · simp only [chain]
    decide
  · intro h
    have h1 := h.2
    simp only [chain] at h1
    exact absurd h1.1 (by decide)

/-- C1 (amended): start threads A, B, C in that order, each time with the main
thread current and the ring links as the previous start left them (nothing
ended, nothing else was linked in), from a ring that holds MainThread only.
After the third start the ring is MainThread, C, B, A, MainThread: each new
thread sits directly behind MainThread. -/
theorem run_thread_order (cfg : Config) (s0 s1 s2 : Machine) (A B C : Nat)
    (hring : IsRing s0.mem cfg.MainThread [])
    (hA : A ∉ [cfg.MainThread]) (hB : B ∉ [cfg.MainThread, A])
    (hC : C ∉ [cfg.MainThread, B, A])
    (hcur0 : getCurThread cfg s0.esp = cfg.MainThread)
    (hcur1 : getCurThread cfg s1.esp = cfg.MainThread)
    (hcur2 : getCurThread cfg s2.esp = cfg.MainThread)
    (hl1 : ∀ a, (s1.mem a).next = ((run_thread_start cfg A s0).mem a).next)
    (hl2 : ∀ a, (s2.mem a).next = ((run_thread_start cfg B s1).mem a).next) :
    IsRing (run_thread_start cfg A s0).mem cfg.MainThread [A] ∧
    IsRing (run_thread_start cfg B s1).mem cfg.MainThread [B, A] ∧
    IsRing (run_thread_start cfg C s2).mem cfg.MainThread [C, B, A] := by
  have h1 := run_thread_start_ring cfg A s0 [] hring hA
  rw [hcur0] at h1
  simp only [ring_insert, if_true] at h1
  have h1b := isRing_congr _ _ hl1 _ _ h1
  have h2 := run_thread_start_ring cfg B s1 [A] h1b hB
  rw [hcur1] at h2
  simp only [ring_insert, if_true] at h2
  have h2b := isRing_congr _ _ hl2 _ _ h2
  have h3 := run_thread_start_ring cfg C s2 [B, A] h2b hC
  rw [hcur2] at h3
  simp only [ring_insert, if_true] at h3
  exact ⟨h1, h2, h3⟩

theorem run_thread_order_witness :
    IsRing (run_thread_start cfg32 0x10000 m1).mem cfg32.MainThread [0x10000] ∧
    IsRing (run_thread_start cfg32 0x20000 sA1).mem cfg32.MainThread [0x20000, 0x10000] ∧
    IsRing (run_thread_start cfg32 0x30000 sB2).mem cfg32.MainThread
      [0x30000, 0x20000, 0x10000] :=
  run_thread_order cfg32 m1 sA1 sB2 0x10000 0x20000 0x30000
    ⟨by decide, by simp only [chain]; decide⟩ (by decide) (by decide) (by decide)
    (by decide) (by decide) (by decide)
    (fun a => yield_next cfg32 sA a)
    (fun a => (yield_next cfg32 sB1 a).trans (yield_next cfg32 sB a))

/-! ## The ring: removal -/

theorem chain_head_replace (mem : Nat → thread_info) (a b z : Nat) (t : List Nat)
    (hat : a ∉ t) (hc : chain mem b t z) :
    chain (set_next mem a (mem b).next) a t z := by
  cases t with
  | nil =>
    simp only [chain] at hc ⊢
    simp [set_next_next, hc]
  | cons c u =>
    simp only [chain] at hc ⊢
    refine ⟨by simp [set_next_next, hc.1], ?_⟩
    refine chain_congr_on mem _ u c z ?_ hc.2
    intro x hx
    have hxa : x ≠ a := fun h => hat (h ▸ hx)
    simp [set_next_next, hxa]

/-- The scan of `__end_thread` along a chain that holds `old` stops, within as
many steps as the chain is long, at the thread whose `next` is `old`; storing
`old->next` there gives the chain without `old`. -/
theorem end_thread_scan_spec (mem : Nat → thread_info) (old z : Nat) (l : List Nat) :
    ∀ (a fuel : Nat), (a :: l).Nodup → chain mem a l z → old ∈ l → l.length ≤ fuel →
      ∃ pos, end_thread_scan mem old fuel a = some pos ∧ pos ∈ a :: l ∧ pos ≠ old ∧
        (mem pos).next = old ∧
        chain (set_next mem pos (mem old).next) a (l.erase old) z := by
  induction l with
  | nil =>
    intro a fuel _ _ hold
    cases hold
  | cons b t ih =>
    intro a fuel hnd hc hold hfuel
    have hab : a ∉ b :: t := (List.nodup_cons.1 hnd).1
    have hbt : (b :: t).Nodup := (List.nodup_cons.1 hnd).2
    simp only [chain] at hc
    obtain ⟨f, rfl⟩ : ∃ f, fuel = f + 1 := by
      cases fuel with
      | zero => simp at hfuel
      | succ f => exact ⟨f, rfl⟩
    have hft : t.length ≤ f := by
      simp only [List.length_cons] at hfuel
      omega
    by_cases hbo : b = old
    · subst hbo
      refine ⟨a, ?_, List.mem_cons_self a _, ?_, hc.1, ?_⟩
      · simp [end_thread_scan, hc.1]
      · exact fun h => hab (h ▸ List.mem_cons_self _ t)
      · rw [List.erase_cons_head]
        exact chain_head_replace mem a b z t
          (fun h => hab (List.mem_cons_of_mem b h)) hc.2
    · have hold2 : old ∈ t := by
        rcases List.mem_cons.1 hold with h | h
        · exact absurd h.symm hbo
        · exact h
      obtain ⟨pos, hscan, hpos, hne, hnext, hch⟩ := ih b f hbt hc.2 hold2 hft
      have hap : a ≠ pos := fun h => hab (h ▸ hpos)
      refine ⟨pos, ?_, List.mem_cons_of_mem a hpos, hne, hnext, ?_⟩
      · have hn : (mem a).next ≠ old := by rw [hc.1]; exact hbo
        rw [end_thread_scan, if_pos hn, hc.1]
        exact hscan
      · have he : (b :: t).erase old = b :: t.erase old := by
          simp [List.erase_cons, hbo]
        rw [he]
        simp only [chain]
        exact ⟨by simp [set_next_next, hap, hc.1], hch⟩

/-- Removal keeps the ring well formed: `__end_thread(old)` on a ring that
holds `old` behind MainThread stops and leaves the ring without `old`. -/
theorem end_thread_ring (cfg : Config) (fuel old : Nat) (s : Machine) (l : List Nat)
    (hring : IsRing s.mem cfg.MainThread l) (hold : old ∈ l) (hfuel : l.length ≤ fuel) :
    ∃ s2, __end_thread cfg fuel old s = some s2 ∧
      IsRing s2.mem cfg.MainThread (l.erase old) ∧
      s2.trace = s.trace ++ [Event.free old, Event.dprintf cfg.DEBUG_thread (u32 old)] ∧
      s2.esp = s.esp ∧ s2.stk = s.stk ∧
      ∀ a, (s2.mem a).stackpos = (s.mem a).stackpos := by
  obtain ⟨pos, hscan, -, -, -, hch⟩ :=
    end_thread_scan_spec s.mem old cfg.MainThread l cfg.MainThread fuel hring.1 hring.2
      hold hfuel
  refine ⟨log (Event.dprintf cfg.DEBUG_thread (u32 old)) (log (Event.free old)
      { s with mem := set_next s.mem pos (s.mem old).next }),
    by simp only [__end_thread, hscan], ⟨?_, hch⟩, ?_, rfl, rfl, ?_⟩
  · have hm : cfg.MainThread ∉ l := (List.nodup_cons.1 hring.1).1
    have hl : l.Nodup := (List.nodup_cons.1 hring.1).2
    exact List.nodup_cons.2 ⟨fun h => hm (List.mem_of_mem_erase h), hl.erase old⟩
  · simp [log]
  · intro a
    simp only [log, set_next]
    split <;> rfl

theorem chain_next_mem (mem : Nat → thread_info) (z : Nat) (t : List Nat) (b x : Nat)
    (hc : chain mem b t z) (hx : x ∈ b :: t) :
    (mem x).next ∈ t ∨ (mem x).next = z := by
  induction t generalizing b with
  | nil =>
    simp only [chain] at hc
    simp only [List.mem_singleton] at hx
    subst hx
    exact Or.inr hc
  | cons c u ih =>
    simp only [chain] at hc
    rcases List.mem_cons.1 hx with h | h
    · subst h
      exact Or.inl (hc.1 ▸ List.mem_cons_self _ u)
    · rcases ih c hc.2 h with h2 | h2
      · exact Or.inl (List.mem_cons_of_mem c h2)
      · exact Or.inr h2

/-- Within a ring only one thread has `old` as its `next`. -/
theorem ring_pred_unique (mem : Nat → thread_info) (main : Nat) (l : List Nat)
    (hring : IsRing mem main l) (x y : Nat) (hx : x ∈ main :: l) (hy : y ∈ main :: l)
    (hxy : (mem x).next = (mem y).next) : x = y := by
  obtain ⟨hnd, hc⟩ := hring
  suffices H : ∀ (l : List Nat) (a z : Nat), (a :: l).Nodup → z ∉ l → chain mem a l z →
      ∀ x y, x ∈ a :: l → y ∈ a :: l → (mem x).next = (mem y).next → x = y from
    H l main main hnd (List.nodup_cons.1 hnd).1 hc x y hx hy hxy
  intro l
  induction l with
  | nil =>
    intro a z _ _ _ x y hx hy _
    simp only [List.mem_singleton] at hx hy
    rw [hx, hy]
  | cons b t ih =>
    intro a z hnd hz hc x y hx hy hxy
    have hbt : (b :: t).Nodup := (List.nodup_cons.1 hnd).2
    have hbnt : b ∉ t := (List.nodup_cons.1 hbt).1
    have hzt : z ∉ t := fun h => hz (List.mem_cons_of_mem b h)
    have hzb : z ≠ b := fun h => hz (h ▸ List.mem_cons_self _ t)
    simp only [chain] at hc
    have tail_ne : ∀ w, w ∈ b :: t → (mem w).next ≠ b := by
      intro w hw h
      rcases chain_next_mem mem z t b w hc.2 hw with h2 | h2
      · exact hbnt (h ▸ h2)
      · exact hzb (h2.symm.trans h)
    rcases List.mem_cons.1 hx with h1 | h1 <;> rcases List.mem_cons.1 hy with h2 | h2
    · rw [h1, h2]
    · subst h1
      exact absurd (hxy.symm.trans hc.1) (tail_ne y h2)
    · subst h2
      exact absurd (hxy.trans hc.1) (tail_ne x h1)
    · exact ih b z hbt hzt hc.2 x y h1 h2 hxy

/-- The `End thread` block of `run_thread` on a ring that holds `thread`: the
scan stops, `thread` leaves the ring and control goes to what was
`thread->next`. -/
theorem run_thread_finish_ring (cfg : Config) (fuel thread : Nat) (s : Machine)
    (l : List Nat) (hring : IsRing s.mem cfg.MainThread l) (hold : thread ∈ l)
    (hfuel : l.length ≤ fuel) :
    ∃ s3, run_thread_finish cfg fuel thread s
        = some (Outcome.switched (s.mem thread).next s3) ∧
      IsRing s3.mem cfg.MainThread (l.erase thread) ∧
      s3.trace = s.trace ++
        [Event.free thread, Event.dprintf cfg.DEBUG_thread (u32 thread)] := by
  obtain ⟨s2, h2, hr, htr, -, -, -⟩ := end_thread_ring cfg fuel thread
    (pushl cfg.run_thread_fin
      { retl s with esp := ((retl s).mem ((retl s).mem thread).next).stackpos })
    l hring hold hfuel
  refine ⟨retl (popl_ebp (retl s2)), ?_, hr, htr⟩
  simp only [run_thread_finish, h2]
  rfl

theorem sC_ring : IsRing sC.mem cfg32.MainThread [0x30000, 0x20000, 0x10000] := by
  refine ⟨by decide, ?_⟩
  simp only [chain]
  decide

theorem sA1_ring : IsRing sA1.mem cfg32.MainThread [0x10000] := by
  refine ⟨by decide, ?_⟩
  simp only [chain]
  decide

/-- C9: on a well formed ring, `__end_thread(old)` for a member `old` other
than MainThread stops within as many iterations as the ring has other members,
at the one member whose `next` is `old`; afterwards the ring is the old
sequence without `old` (the others in their order), and `free(old)` was called
exactly once.  The same holds for the `End thread` block of `run_thread`, which
then hands control to what was `old->next`. -/
theorem end_thread_removes (cfg : Config) (fuel old : Nat) (s : Machine) (l : List Nat)
    (hring : IsRing s.mem cfg.MainThread l) (hold : old ∈ l) (hfuel : l.length ≤ fuel) :
    ∃ pos s2, end_thread_scan s.mem old fuel cfg.MainThread = some pos ∧
      pos ∈ cfg.MainThread :: l ∧ (s.mem pos).next = old ∧
      (∀ x ∈ cfg.MainThread :: l, (s.mem x).next = old → x = pos) ∧
      __end_thread cfg fuel old s = some s2 ∧
      IsRing s2.mem cfg.MainThread (l.erase old) ∧
      l.erase old = l.filter (fun x => x != old) ∧
      s2.trace = s.trace ++ [Event.free old, Event.dprintf cfg.DEBUG_thread (u32 old)] ∧
      s2.trace.count (Event.free old) = s.trace.count (Event.free old) + 1 ∧
      ∃ s3, run_thread_finish cfg fuel old s
          = some (Outcome.switched (s.mem old).next s3) ∧
        IsRing s3.mem cfg.MainThread (l.erase old) := by
  obtain ⟨pos, hscan, hpos, -, hnext, -⟩ :=
    end_thread_scan_spec s.mem old cfg.MainThread l cfg.MainThread fuel hring.1 hring.2
      hold hfuel
  obtain ⟨s2, h2, hr, htr, -, -, -⟩ := end_thread_ring cfg fuel old s l hring hold hfuel
  obtain ⟨s3, h3, hr3, -⟩ := run_thread_finish_ring cfg fuel old s l hring hold hfuel
  refine ⟨pos, s2, hscan, hpos, hnext, ?_, h2, hr, ?_, htr, ?_, s3, h3, hr3⟩
  · intro x hx hxo
    exact ring_pred_unique s.mem cfg.MainThread l hring x pos hx hpos (hxo.trans hnext.symm)
  · exact (List.nodup_cons.1 hring.1).2.erase_eq_filter old
  · rw [htr]
    simp [List.count_cons]

theorem end_thread_removes_witness :
    ∃ pos s2, end_thread_scan sC.mem 0x20000 3 cfg32.MainThread = some pos ∧
      pos ∈ cfg32.MainThread :: [0x30000, 0x20000, 0x10000] ∧
      (sC.mem pos).next = 0x20000 ∧
      (∀ x ∈ cfg32.MainThread :: [0x30000, 0x20000, 0x10000],
        (sC.mem x).next = 0x20000 → x = pos) ∧
      __end_thread cfg32 3 0x20000 sC = some s2 ∧
      IsRing s2.mem cfg32.MainThread ([0x30000, 0x20000, 0x10000].erase 0x20000) ∧
      [0x30000, 0x20000, 0x10000].erase 0x20000
        = [0x30000, 0x20000, 0x10000].filter (fun x => x != 0x20000) ∧
      s2.trace = sC.trace ++
        [Event.free 0x20000, Event.dprintf cfg32.DEBUG_thread (u32 0x20000)] ∧
      s2.trace.count (Event.free 0x20000) = sC.trace.count (Event.free 0x20000) + 1 ∧
      ∃ s3, run_thread_finish cfg32 3 0x20000 sC
          = some (Outcome.switched (sC.mem 0x20000).next s3) ∧
        IsRing s3.mem cfg32.MainThread ([0x30000, 0x20000, 0x10000].erase 0x20000) :=
  end_thread_removes cfg32 3 0x20000 sC [0x30000, 0x20000, 0x10000] sC_ring
    (by decide) (by decide)

/-! ## The ring as a cycle of `next` links -/

theorem chain_iterate (mem : Nat → thread_info) (z : Nat) (l : List Nat) :
    ∀ a, chain mem a l z →
      (∀ i, i ≤ l.length → (a :: l)[i]? = some ((nextOf mem)^[i] a)) ∧
      (nextOf mem)^[l.length + 1] a = z := by
  induction l with
  | nil =>
    intro a hc
    simp only [chain] at hc
    refine ⟨?_, ?_⟩
    · intro i hi
      have h0 : i = 0 := by simpa using hi
      subst h0
      rfl
    · simpa [nextOf] using hc
  | cons b t ih =>
    intro a hc
    simp only [chain] at hc
    obtain ⟨h1, h2⟩ := ih b hc.2
    have hb : nextOf mem a = b := hc.1
    refine ⟨?_, ?_⟩
    · intro i hi
      cases i with
      | zero => rfl
      | succ k =>
        have hk : k ≤ t.length := by
          simp only [List.length_cons] at hi
          omega
        rw [List.getElem?_cons_succ, h1 k hk, Function.iterate_succ_apply, hb]
    · rw [List.length_cons, Function.iterate_succ_apply, hb]
      exact h2

theorem chain_of_iterate (mem : Nat → thread_info) (n : Nat) :
    ∀ a, chain mem a ((List.range n).map (fun i => (nextOf mem)^[i + 1] a))
      ((nextOf mem)^[n + 1] a) := by
  induction n with
  | zero =>
    intro a
    simp [chain, nextOf]
  | succ n ih =>
    intro a
    rw [List.range_succ_eq_map, List.map_cons, List.map_map]
    simp only [chain]
    refine ⟨by simp [nextOf], ?_⟩
    have h := ih (nextOf mem a)
    simp only [← Function.iterate_succ_apply] at h
    have hf : ((fun i => (nextOf mem)^[i + 1] a) ∘ Nat.succ)
        = fun i => (nextOf mem)^[i + 1 + 1] a := rfl
    rw [hf]
    simpa [nextOf] using h

/-- The list formulation of well-formedness and the cycle formulation agree. -/
theorem ringWF_iff_ringCycle (mem : Nat → thread_info) (main : Nat) :
    RingWF mem main ↔ RingCycle mem main := by
  constructor
  · rintro ⟨l, hnd, hc⟩
    obtain ⟨h1, h2⟩ := chain_iterate mem main l main hc
    refine ⟨l.length, h2, ?_⟩
    intro i j hij hj heq
    have hne := List.nodup_iff_getElem?_ne_getElem?.1 hnd i j hij
      (by simp only [List.length_cons]; omega)
    rw [h1 i (by omega), h1 j hj, heq] at hne
    exact hne rfl
  · rintro ⟨n, hback, hdist⟩
    refine ⟨(List.range n).map (fun i => (nextOf mem)^[i + 1] main), ?_, ?_⟩
    · have he : main :: (List.range n).map (fun i => (nextOf mem)^[i + 1] main)
          = (List.range (n + 1)).map (fun i => (nextOf mem)^[i] main) := by
        rw [List.range_succ_eq_map, List.map_cons, List.map_map]
        rfl
      rw [he]
      refine List.Nodup.map_on ?_ (List.nodup_range (n + 1))
      intro x hx y hy hxy
      have hx2 : x ≤ n := by
        have := List.mem_range.1 hx
        omega
      have hy2 : y ≤ n := by
        have := List.mem_range.1 hy
        omega
      rcases Nat.lt_trichotomy x y with h | h | h
      · exact absurd hxy (hdist x y h hy2)
      · exact h
      · exact absurd hxy.symm (hdist y x h hx2)
    · have h := chain_of_iterate mem n main
      rw [hback] at h
      exact h

/-- C8: the ring stays well formed.  After `thread_setup` it is MainThread
alone; the insertion done by `run_thread` for a block that is not yet in the
ring, and the removal done by `__end_thread` for a member other than
MainThread, both start from a well formed ring and leave a well formed ring
(following `next` from MainThread comes back to MainThread after finitely many
steps through pairwise different threads: the list formulation `RingWF` and
the cycle formulation `RingCycle` agree). -/
theorem ring_invariant (cfg : Config) :
    (∀ mem, RingWF mem cfg.MainThread ↔ RingCycle mem cfg.MainThread) ∧
    (∀ s, IsRing (thread_setup cfg s).mem cfg.MainThread [] ∧
      RingWF (thread_setup cfg s).mem cfg.MainThread) ∧
    (∀ s l thread, IsRing s.mem cfg.MainThread l → thread ∉ cfg.MainThread :: l →
      RingWF (run_thread_start cfg thread s).mem cfg.MainThread) ∧
    (∀ s l old fuel, IsRing s.mem cfg.MainThread l → old ∈ cfg.MainThread :: l →
      old ≠ cfg.MainThread → l.length ≤ fuel →
      ∃ s2, __end_thread cfg fuel old s = some s2 ∧ RingWF s2.mem cfg.MainThread) := by
  refine ⟨fun mem => ringWF_iff_ringCycle mem cfg.MainThread, ?_, ?_, ?_⟩
  · intro s
    have h : IsRing (thread_setup cfg s).mem cfg.MainThread [] := by
      rw [isRing_nil]
      simp [thread_setup, set_stackpos_next, set_next_next]
    exact ⟨h, [], h⟩
  · intro s l thread hl hfresh
    exact ⟨_, run_thread_start_ring cfg thread s l hl hfresh⟩
  · intro s l old fuel hl hmem hne hfuel
    have hold : old ∈ l := by
      rcases List.mem_cons.1 hmem with h | h
      · exact absurd h hne
      · exact h
    obtain ⟨s2, hs2, hr, -⟩ := end_thread_ring cfg fuel old s l hl hold hfuel
    exact ⟨s2, hs2, _, hr⟩

theorem ring_invariant_witness :
    (IsRing (thread_setup cfg32 m0).mem cfg32.MainThread [] ∧
      RingWF (thread_setup cfg32 m0).mem cfg32.MainThread) ∧
    RingWF (run_thread_start cfg32 0x20000 sA1).mem cfg32.MainThread ∧
    ∃ s2, __end_thread cfg32 3 0x20000 sC = some s2 ∧ RingWF s2.mem cfg32.MainThread :=
  ⟨(ring_invariant cfg32).2.1 m0,
    (ring_invariant cfg32).2.2.1 sA1 [0x10000] 0x20000 sA1_ring (by decide),
    (ring_invariant cfg32).2.2.2 sC [0x30000, 0x20000, 0x10000] 0x20000 3 sC_ring
      (by decide) (by decide) (by decide)⟩

end SeaBIOS
